import Mathlib

/-!
Verification development for the macow normalizing-flow repository
(src/macow/flows/nice.py, src/macow/flows/glow.py, src/macow/model.py).

Tensors are modelled per example as a list of channels, each channel a list
of rational entries (the flattened spatial extent).  All per-example
operations of the source (channel slicing, elementwise affine coupling,
log-determinant accumulation, the multi-scale composer's squeeze / split /
stack bookkeeping) are translated directly; the learned sub-networks
(`Conv2dWeightNorm` stacks), the `gate` combinator, `sigmoid` and `log`
live outside src/ and are treated as abstract function parameters.
-/

/-- A per-example tensor: channels, each a flattened spatial list. -/
abbrev Ten : Type := List (List ℚ)

/-- Elementwise map over every entry of a tensor. -/
def zmap (f : ℚ → ℚ) (t : Ten) : Ten := t.map (fun ch => ch.map f)

/-- Elementwise binary zip over two tensors (truncating, like zipWith). -/
def zip2 (f : ℚ → ℚ → ℚ) (a b : Ten) : Ten :=
  List.zipWith (fun x y => List.zipWith f x y) a b

/-- Elementwise product, `z2.mul(scale)` in the source. -/
def tmul (a b : Ten) : Ten := zip2 (fun x y => x * y) a b

/-- Elementwise sum, `z2 + mu` in the source. -/
def tadd (a b : Ten) : Ten := zip2 (fun x y => x + y) a b

/-- Elementwise difference, `z2 - mu` in the source. -/
def tsub (a b : Ten) : Ten := zip2 (fun x y => x - y) a b

/-- Sum of every entry of a tensor: `.view(batch, -1).sum(dim=1)` for one
example. -/
def entSum (t : Ten) : ℚ := (t.map (fun ch => ch.sum)).sum

/-- Per-channel lengths of a tensor; two tensors interoperate elementwise
exactly when their shapes agree. -/
def shape (t : Ten) : List ℕ := t.map List.length

/-- Shape agreement between two tensors. -/
def sameShape (a b : Ten) : Prop := shape a = shape b

/-- Every entry of a tensor satisfies a predicate. -/
def allEntries (p : ℚ → Prop) (t : Ten) : Prop :=
  ∀ ch ∈ t, ∀ v ∈ ch, p v

/-- Abstract primitives living outside src/: the `gate` combinator from
macow/flows/conv.py and the transcendental elementwise functions `sigmoid`
and `log` of torch, abstracted as rational-valued parameters. -/
structure Prim where
  gate : Ten → Ten → Ten
  sigmoid : ℚ → ℚ
  rlog : ℚ → ℚ

/-- Chunk size used by `torch.chunk(k, dim=1)`: ceil(c / k). -/
def chunkSize (c k : ℕ) : ℕ := (c + k - 1) / k

/-- Model of `c.chunk(2, dim=1)` along the channel dimension. -/
def chunk2 (t : Ten) : Ten × Ten :=
  let s := chunkSize t.length 2
  (t.take s, t.drop s)

/-- Model of `c.chunk(4, dim=1)` along the channel dimension. -/
def chunk4 (t : Ten) : Ten × Ten × Ten × Ten :=
  let s := chunkSize t.length 4
  (t.take s, (t.drop s).take s, (t.drop (2 * s)).take s, t.drop (3 * s))

/-- Configuration of one NICE coupling (nice.py, `NICE.__init__`): channel
count, the scale-mode flag, the derived z1 boundary, and the coupling
network (a `NICEBlock`, whose convolution internals live outside src/ and
are abstracted to a function of z1 and the optional side input). -/
structure NICEcfg where
  in_channels : ℕ
  scale : Bool
  z1_channels : ℕ
  net : Ten → Option Ten → Ten

/-- Constructor of nice.py lines 46-59: `out_channels = in_channels //
factor`, `z1_channels = in_channels - out_channels`. -/
def mkNICE (net : Ten → Option Ten → Ten) (in_channels factor : ℕ)
    (scale : Bool) : NICEcfg :=
  { in_channels := in_channels, scale := scale,
    z1_channels := in_channels - in_channels / factor, net := net }

/-- Model of `NICE.calc_mu_and_scale` (nice.py lines 61-71): run the
network on z1, chunk the result, gate the halves, and in scale mode pass
the gated log-scale through `sigmoid(. + 2)`.  Returns `none` for the
scale when scale mode is off, as the source returns `scale = None`. -/
def calcMuScale (P : Prim) (cfg : NICEcfg) (z1 : Ten) (s : Option Ten) :
    Ten × Option Ten :=
  let c := cfg.net z1 s
  if cfg.scale then
    let p := chunk4 c
    let logScale := P.gate p.2.2.1 p.2.2.2
    let scl := zmap (fun q => P.sigmoid (q + 2)) logScale
    (P.gate p.1 p.2.1, some scl)
  else
    let p := chunk2 c
    (P.gate p.1 p.2, none)

/-- Model of `NICE.forward` (nice.py lines 86-110): slice z1/z2 at the z1
boundary, compute (mu, scale) from z1, apply `z2 * scale + mu` with logdet
`sum(log(scale))` in scale mode, else `z2 + mu` with logdet 0. -/
def NICE.forward (P : Prim) (cfg : NICEcfg) (x : Ten) (s : Option Ten) :
    Ten × ℚ :=
  let z1 := x.take cfg.z1_channels
  let z2 := x.drop cfg.z1_channels
  let ms := calcMuScale P cfg z1 s
  match ms.2 with
  | some scl => (z1 ++ tadd (tmul z2 scl) ms.1, entSum (zmap P.rlog scl))
  | none => (z1 ++ tadd z2 ms.1, 0)

/-- The epsilon offsetting the divisor in `NICE.backward` (nice.py line
132, `z2.div(scale + 1e-12)`). -/
def niceEps : ℚ := 1 / 10 ^ 12

/-- Model of `NICE.backward` (nice.py lines 112-137) with the division
epsilon as an explicit parameter: slice z1/z2, recompute (mu, scale) from
z1, subtract mu, divide by `scale + eps` in scale mode, and negate the
logdet. -/
def NICE.backwardE (P : Prim) (cfg : NICEcfg) (eps : ℚ) (x : Ten)
    (s : Option Ten) : Ten × ℚ :=
  let z1 := x.take cfg.z1_channels
  let z2 := x.drop cfg.z1_channels
  let ms := calcMuScale P cfg z1 s
  let z2s := tsub z2 ms.1
  match ms.2 with
  | some scl =>
      (z1 ++ zip2 (fun a v => a / (v + eps)) z2s scl,
        entSum (zmap P.rlog scl) * (-1))
  | none => (z1 ++ z2s, 0)

/-- The source's `NICE.backward`, with its hard-coded `1e-12` epsilon. -/
def NICE.backward (P : Prim) (cfg : NICEcfg) (x : Ten) (s : Option Ten) :
    Ten × ℚ :=
  NICE.backwardE P cfg niceEps x s

/-- Spec-side coupling forward, written from spec.md section 4.1: partition
channels into z1 (first C - floor(C/2)) and z2, compute mu and scale from
z1 and the optional side input, apply `z2 * scale + mu` with logdet
`sum(log(scale))` when scale mode is enabled, else `z2 + mu` with logdet
0, and output the concatenation of the unchanged z1 with the updated z2. -/
def couplingForwardSpec (lg : ℚ → ℚ) (muF sclF : Ten → Option Ten → Ten)
    (C : ℕ) (sc : Bool) (x : Ten) (s : Option Ten) : Ten × ℚ :=
  let z1 := x.take (C - C / 2)
  let z2 := x.drop (C - C / 2)
  if sc then
    (z1 ++ tadd (tmul z2 (sclF z1 s)) (muF z1 s), entSum (zmap lg (sclF z1 s)))
  else
    (z1 ++ tadd z2 (muF z1 s), 0)

/-- Spec-side coupling backward, written from spec.md sections 4.1 and 7:
recompute (mu, scale) from the unchanged z1, invert with
`z2 = (z2' - mu) / (scale + epsilon)` (the epsilon guarding division) in
scale mode or `z2' - mu` otherwise, and negate the logdet. -/
def couplingBackwardSpec (lg : ℚ → ℚ) (muF sclF : Ten → Option Ten → Ten)
    (epsv : ℚ) (C : ℕ) (sc : Bool) (x : Ten) (s : Option Ten) : Ten × ℚ :=
  let z1 := x.take (C - C / 2)
  let z2 := x.drop (C - C / 2)
  if sc then
    (z1 ++ zip2 (fun a v => a / (v + epsv)) (tsub z2 (muF z1 s)) (sclF z1 s),
      -(entSum (zmap lg (sclF z1 s))))
  else
    (z1 ++ tsub z2 (muF z1 s), 0)

/-- The mu component of `calc_mu_and_scale`, as a standalone function. -/
def niceMu (P : Prim) (cfg : NICEcfg) (z1 : Ten) (s : Option Ten) : Ten :=
  (calcMuScale P cfg z1 s).1

/-- The scale component of `calc_mu_and_scale`, defaulting to the empty
tensor when scale mode is off. -/
def niceScale (P : Prim) (cfg : NICEcfg) (z1 : Ten) (s : Option Ten) : Ten :=
  ((calcMuScale P cfg z1 s).2).getD []

/-- An invertible 1x1 channel-mixing convolution (`Conv1x1Flow` of
macow/flows/conv.py).

Modelled from the spec: Conv1x1Flow is absent from src/; section 4.2
describes it as an invertible linear transform over channels whose forward
and backward directions each return a transformed tensor and a logdet, so
it is abstracted here to a pair of functions of the conditioning input and
the tensor. -/
structure Conv1x1 where
  fwd : Option Ten → Ten → Ten × ℚ
  bwd : Option Ten → Ten → Ten × ℚ

/-- One step of Glow (`GlowStep`, glow.py lines 15-42): a 1x1 convolution
followed by a NICE coupling. -/
structure StepM where
  conv1x1 : Conv1x1
  coupling : NICEcfg

/-- Model of `GlowStep.forward` (glow.py lines 24-29): conv1x1 forward with
conditioning h, then coupling forward with conditioning h; logdets add. -/
def stepForward (P : Prim) (st : StepM) (x : Ten) (h : Option Ten) :
    Ten × ℚ :=
  let r1 := st.conv1x1.fwd h x
  let r2 := NICE.forward P st.coupling r1.1 h
  (r2.1, r1.2 + r2.2)

/-- Model of `GlowStep.backward` (glow.py lines 31-35), with the NICE
division epsilon explicit: the coupling's backward is invoked with NO
conditioning argument (the source calls `self.coupling.backward(input)`),
then conv1x1 backward with conditioning h; logdets add. -/
def stepBackwardE (P : Prim) (st : StepM) (eps : ℚ) (x : Ten)
    (h : Option Ten) : Ten × ℚ :=
  let r1 := NICE.backwardE P st.coupling eps x none
  let r2 := st.conv1x1.bwd h r1.1
  (r2.1, r1.2 + r2.2)

/-- Fold of `step.forward` over a step sequence with logdet accumulation
(the loop of `GlowTopBlock.forward`, glow.py lines 55-62). -/
def stepsForward (P : Prim) (steps : List StepM) (x : Ten) (h : Option Ten) :
    Ten × ℚ :=
  steps.foldl (fun acc st =>
    let r := stepForward P st acc.1 h
    (r.1, acc.2 + r.2)) (x, 0)

/-- Fold of `step.backward` over a REVERSED step sequence with logdet
accumulation (the loop of `GlowTopBlock.backward`, glow.py lines 65-71). -/
def stepsBackwardE (P : Prim) (steps : List StepM) (eps : ℚ) (x : Ten)
    (h : Option Ten) : Ten × ℚ :=
  steps.reverse.foldl (fun acc st =>
    let r := stepBackwardE P st eps acc.1 h
    (r.1, acc.2 + r.2)) (x, 0)

/-- A Glow block (glow.py): either a top block (steps only,
`GlowTopBlock`) or an internal block (steps plus a trailing NICE prior,
`GlowInternalBlock`). -/
inductive BlockB where
  | top (steps : List StepM)
  | internal (steps : List StepM) (prior : NICEcfg)

/-- The steps of a block. -/
def BlockB.steps : BlockB → List StepM
  | .top s => s
  | .internal s _ => s

/-- Whether a block is an internal block (the source's
`isinstance(block, GlowInternalBlock)` test). -/
def BlockB.internalTag : BlockB → Bool
  | .top _ => false
  | .internal _ _ => true

/-- Model of block forward (glow.py lines 55-62 and 95-104): run the steps
in order; an internal block then applies its prior coupling's forward with
conditioning h. -/
def blockForward (P : Prim) (b : BlockB) (x : Ten) (h : Option Ten) :
    Ten × ℚ :=
  match b with
  | .top steps => stepsForward P steps x h
  | .internal steps prior =>
      let r := stepsForward P steps x h
      let rp := NICE.forward P prior r.1 h
      (rp.1, r.2 + rp.2)

/-- Model of block backward (glow.py lines 65-71 and 107-113): an internal
block first applies its prior coupling's backward (with conditioning h,
unlike the steps' couplings), then the steps run in reverse. -/
def blockBackwardE (P : Prim) (b : BlockB) (eps : ℚ) (x : Ten)
    (h : Option Ten) : Ten × ℚ :=
  match b with
  | .top steps => stepsBackwardE P steps eps x h
  | .internal steps prior =>
      let rp := NICE.backwardE P prior eps x h
      let r := stepsBackwardE P steps eps rp.1 h
      (r.1, rp.2 + r.2)

/-- A block as the composer sees it: a forward pass, a backward pass, and
the internal tag.  `Glow.forward`/`Glow.backward` only ever call these
three things on a block, so the composer is stated over this interface. -/
structure BlockM where
  fwd : Option Ten → Ten → Ten × ℚ
  bwd : Option Ten → Ten → Ten × ℚ
  internal : Bool

/-- View of a concrete block through the composer interface. -/
def BlockB.toM (P : Prim) (eps : ℚ) (b : BlockB) : BlockM :=
  { fwd := fun h x => blockForward P b x h,
    bwd := fun h x => blockBackwardE P b eps x h,
    internal := b.internalTag }

/-- The squeeze / unsqueeze / split / unsplit primitives of macow/utils.py.

Modelled from the spec: utils.py is absent from src/; section 6 describes
these as external pure functions, `squeeze`/`unsqueeze` an exact
space-to-depth inverse pair and `split`/`unsplit` an exact
channel-partition inverse pair, so they are abstracted to functions whose
inverse laws become hypotheses of the composer theorems. -/
structure SqOps where
  squeeze2d : Ten → Ten
  unsqueeze2d : Ten → Ten
  split2d : Ten → Ten × Ten
  unsplit2d : Ten → Ten → Ten

/-- The multi-scale composer (`Glow`, glow.py lines 128-148): a level
count and the list of per-level blocks. -/
structure GlowM where
  levels : ℕ
  blocks : List BlockM

/-- The block phase of `Glow.forward` (glow.py lines 155-162): for each
block, squeeze, run the block, and for internal blocks split the output,
push the second half on the residual list and continue with the first.
The residual list is kept most-recently-pushed first, matching the
append/pop-from-the-end discipline of the source's Python list. -/
def fwdBlocks (O : SqOps) (h : Option Ten) :
    List BlockM → Ten → Ten × ℚ × List Ten
  | [], t => (t, 0, [])
  | b :: bs, t =>
      let sq := O.squeeze2d t
      let r := b.fwd h sq
      if b.internal then
        let p := O.split2d r.1
        let rest := fwdBlocks O h bs p.1
        (rest.1, r.2 + rest.2.1, rest.2.2 ++ [p.2])
      else
        let rest := fwdBlocks O h bs r.1
        (rest.1, r.2 + rest.2.1, rest.2.2)

/-- The reassembly phase of `Glow.forward` (glow.py lines 164-167): `n`
times, pop a residual, unsplit it back in and unsqueeze.  Popping an empty
list is the source's IndexError, modelled as `none`. -/
def rebuild (O : SqOps) : ℕ → Ten → List Ten → Option (Ten × List Ten)
  | 0, t, st => some (t, st)
  | n + 1, t, st =>
      match st with
      | [] => none
      | e :: st' => rebuild O n (O.unsqueeze2d (O.unsplit2d t e)) st'

/-- Model of `Glow.forward` (glow.py lines 150-169).  The trailing
`assert len(outputs) == 0` is modelled by returning `none` when the
residual list is non-empty at the end. -/
def glowForward (O : SqOps) (g : GlowM) (h : Option Ten) (x : Ten) :
    Option (Ten × ℚ) :=
  let r := fwdBlocks O h g.blocks x
  match rebuild O (g.levels - 1) (O.unsqueeze2d r.1) r.2.2 with
  | none => none
  | some p => if p.2 = [] then some (p.1, r.2.1) else none

/-- The pre-split phase of `Glow.backward` (glow.py lines 173-178): `n`
times, split the tensor, push the second half and squeeze the first. -/
def presplit (O : SqOps) : ℕ → Ten → List Ten → Ten × List Ten
  | 0, t, st => (t, st)
  | n + 1, t, st =>
      let p := O.split2d t
      presplit O n (O.squeeze2d p.1) (p.2 :: st)

/-- The block phase of `Glow.backward` (glow.py lines 181-187), running
over the REVERSED block list: internal blocks pop a residual and unsplit
it in before their backward; every block's backward is followed by an
unsqueeze.  Popping an empty list is `none`. -/
def bwdBlocks (O : SqOps) (h : Option Ten) :
    List BlockM → Ten → List Ten → ℚ → Option (Ten × List Ten × ℚ)
  | [], t, st, a => some (t, st, a)
  | b :: bs, t, st, a =>
      if b.internal then
        match st with
        | [] => none
        | e :: st' =>
            let r := b.bwd h (O.unsplit2d t e)
            bwdBlocks O h bs (O.unsqueeze2d r.1) st' (a + r.2)
      else
        let r := b.bwd h t
        bwdBlocks O h bs (O.unsqueeze2d r.1) st (a + r.2)

/-- Model of `Glow.backward` (glow.py lines 171-189), with the trailing
assertion modelled as in `glowForward`. -/
def glowBackward (O : SqOps) (g : GlowM) (h : Option Ten) (z : Ten) :
    Option (Ten × ℚ) :=
  let p := presplit O (g.levels - 1) (O.squeeze2d z) []
  match bwdBlocks O h g.blocks.reverse p.1 p.2 0 with
  | none => none
  | some r => if r.2.1 = [] then some (r.1, r.2.2) else none

/-- The fresh learned modules a construction consumes: one 1x1 convolution
and one coupling network per allocation. -/
structure StepLeaf where
  conv : Conv1x1
  net : Ten → Option Ten → Ten

/-- Model of `GlowStep.__init__` (glow.py lines 19-22): a fresh conv1x1
and a NICE coupling on `in_channels` channels with the given scale flag
(factor defaults to 2). -/
def mkStep (leaf : StepLeaf) (inC : ℕ) (scale : Bool) : StepM :=
  { conv1x1 := leaf.conv, coupling := mkNICE leaf.net inC 2 scale }

/-- The `num_steps` fresh steps of one block, drawn from the supply
starting at index `idx`. -/
def mkSteps (supply : ℕ → StepLeaf) (idx n inC : ℕ) (scale : Bool) :
    List StepM :=
  (List.range n).map (fun j => mkStep (supply (idx + j)) inC (scale))

/-- The block list built by `Glow.__init__` (glow.py lines 136-148): every
level quadruples the channel count by squeezing; all levels but the last
build an internal block whose prior is a NICE constructed with
`scale=True` REGARDLESS of the model's scale flag (glow.py line 92), and
halve the channel count for the next level; the last level builds a top
block. -/
def buildBlocks (supply : ℕ → StepLeaf) :
    ℕ → ℕ → Bool → List ℕ → List BlockB
  | _, _, _, [] => []
  | idx, inC, scale, [n] => [BlockB.top (mkSteps supply idx n (inC * 4) scale)]
  | idx, inC, scale, n :: m :: rest =>
      BlockB.internal (mkSteps supply idx n (inC * 4) scale)
          (mkNICE (supply (idx + n)).net (inC * 4) 2 true)
        :: buildBlocks supply (idx + n + 1) (inC * 4 / 2) scale (m :: rest)

/-- A constructed composer: the level count and the concrete blocks. -/
structure GlowB where
  levels : ℕ
  blocks : List BlockB

/-- Model of `Glow.__init__` (glow.py lines 132-148): the two construction
assertions (`levels > 1` and `levels == len(num_steps)`) are modelled as
returning `none`; on success the block list is built level by level. -/
def mkGlow (supply : ℕ → StepLeaf) (levels : ℕ) (num_steps : List ℕ)
    (in_channels : ℕ) (scale : Bool) : Option GlowB :=
  if 1 < levels ∧ num_steps.length = levels then
    some { levels := levels,
           blocks := buildBlocks supply 0 in_channels scale num_steps }
  else none

/-- A constructed composer through the composer interface. -/
def GlowB.toM (P : Prim) (eps : ℚ) (g : GlowB) : GlowM :=
  { levels := g.levels, blocks := g.blocks.map (BlockB.toM P eps) }

/-- Model of `FlowGenModel.encode` (model.py lines 27-41).

Modelled from the spec: `Flow.bwdpass` lives in macow/flows/flow.py,
absent from src/; per spec.md section 4.6 the wrapped flow is in inverse
mode and `encode` runs its data-to-latent direction, which for an
inverse-mode flow is the flow's `backward`. -/
def FlowGen.encode (O : SqOps) (g : GlowM) (h : Option Ten) (x : Ten) :
    Option (Ten × ℚ) :=
  glowBackward O g h x

/-- Model of `FlowGenModel.decode` (model.py lines 43-56).

Modelled from the spec: `Flow.fwdpass` lives in macow/flows/flow.py,
absent from src/; per spec.md section 4.6 `decode` runs the wrapped
inverse-mode flow's latent-to-data direction, which is the flow's
`forward`. -/
def FlowGen.decode (O : SqOps) (g : GlowM) (h : Option Ten) (z : Ten) :
    Option (Ten × ℚ) :=
  glowForward O g h z

/-- Model of `FlowGenModel.log_probability` (model.py lines 61-77): encode
x, form `z^2 + c` elementwise (c standing for the transcendental constant
`log(2 * pi)`), sum over all non-batch entries, multiply by -0.5 and add
the accumulated logdet. -/
def FlowGen.logProbability (O : SqOps) (g : GlowM) (h : Option Ten)
    (c : ℚ) (x : Ten) : Option ℚ :=
  match FlowGen.encode O g h x with
  | none => none
  | some r => some (entSum (zmap (fun v => v ^ 2 + c) r.1) * (-(1 / 2)) + r.2)

/-- Number of internal blocks in a block list: each pushes exactly one
residual during a forward pass and pops exactly one during backward. -/
def countInternal (bs : List BlockM) : ℕ := bs.countP (fun b => b.internal)

/-- The coupling network `NICEBlock` of nice.py lines 13-42: three
weight-normalised convolutions (`Conv2dWeightNorm`, external to src/,
abstracted to a plain run function and a data-dependent `init(x,
init_scale)` calibration function) interleaved with the ELU activation
(also abstracted). -/
structure ConvWN where
  run : Ten → Ten
  init : ℚ → Ten → Ten

/-- The three convolutions and activation of one `NICEBlock`. -/
structure NICEBlockM where
  conv1 : ConvWN
  conv2 : ConvWN
  conv3 : ConvWN
  act : Ten → Ten

/-- Model of `NICEBlock.init` (nice.py lines 21-31): concatenate the
optional side input, calibrate conv1 and conv2 with the caller-supplied
init scale, and calibrate conv3 with `init_scale=0.0`. -/
def NICEBlockM.initRun (b : NICEBlockM) (x : Ten) (s : Option Ten)
    (initScale : ℚ) : Ten :=
  let x1 := match s with
    | some t => x ++ t
    | none => x
  b.conv3.init 0 (b.act (b.conv2.init initScale (b.act (b.conv1.init initScale x1))))

/-- A computable channel-splitting bijection on tensors, used to witness
the spec's exact split/unsplit inverse-pair laws. -/
def splitE : Ten ≃ Ten × Ten :=
  (Denumerable.eqv Ten).trans ((Denumerable.eqv (Ten × Ten)).symm)

/-- Squeeze/split primitives satisfying all four inverse laws exactly:
squeeze is the identity and split is the `splitE` bijection. -/
def Oeq : SqOps :=
  { squeeze2d := id, unsqueeze2d := id,
    split2d := fun t => splitE t,
    unsplit2d := fun a b => splitE.symm (a, b) }

/-- A concrete internal block through the composer interface: identity
transform with zero logdet. -/
def blkI : BlockM :=
  { fwd := fun _ t => (t, 0), bwd := fun _ t => (t, 0), internal := true }

/-- A concrete top block through the composer interface. -/
def blkT : BlockM :=
  { fwd := fun _ t => (t, 0), bwd := fun _ t => (t, 0), internal := false }

/-- A two-level composer over the concrete blocks. -/
def gEq : GlowM := { levels := 2, blocks := [blkI, blkT] }

/-- A one-level composer with a single top block. -/
def gOne : GlowM := { levels := 1, blocks := [blkT] }

/-- Concrete primitives for evaluation: gate keeps its first argument,
sigmoid is the constant 1/2 (a value real sigmoid attains), and log is
the constant 1. -/
def prim4 : Prim :=
  { gate := fun a _ => a, sigmoid := fun _ => 1 / 2, rlog := fun _ => 1 }

/-- A concrete module supply: identity 1x1 convolutions with zero logdet
and a network that always outputs eight one-entry channels of zeros. -/
def leaf4 : StepLeaf :=
  { conv := { fwd := fun _ t => (t, 0), bwd := fun _ t => (t, 0) },
    net := fun _ _ => List.replicate 8 [0] }

/-- The constant supply of `leaf4` modules. -/
def supply4 : ℕ → StepLeaf := fun _ => leaf4

/-- Concrete squeeze/split primitives for evaluation: identity squeeze
and a channel-halving split with append as unsplit. -/
def O4 : SqOps :=
  { squeeze2d := id, unsqueeze2d := id,
    split2d := fun t => (t.take ((t.length + 1) / 2), t.drop ((t.length + 1) / 2)),
    unsplit2d := fun a b => a ++ b }

/-- The composer built by the constructor at levels=2, steps [0,0], one
input channel, scale disabled. -/
def g4 : GlowB := { levels := 2, blocks := buildBlocks supply4 0 1 false [0, 0] }

/-- A concrete four-channel input. -/
def x4 : Ten := [[1], [1], [1], [1]]

/-- Concrete primitives whose log is the constant 0. -/
def prim9 : Prim :=
  { gate := fun a _ => a, sigmoid := fun _ => 1 / 2, rlog := fun _ => 0 }

/-- A network whose output depends on whether side conditioning is
present, so that forward (which receives h) and backward (which does not)
disagree. -/
def net9 : Ten → Option Ten → Ten := fun _ h =>
  match h with
  | some _ => [[1], [1]]
  | none => [[0], [0]]

/-- A Glow step with an identity channel mixing and a two-channel
additive (scale-free) coupling driven by `net9`. -/
def step9 : StepM :=
  { conv1x1 := { fwd := fun _ t => (t, 0), bwd := fun _ t => (t, 0) },
    coupling := mkNICE net9 2 2 false }

/-- A concrete two-channel input. -/
def x9 : Ten := [[0], [0]]

/-- A concrete present side-conditioning input. -/
def h9 : Option Ten := some [[5]]

/-- An identity weight-normalised convolution. -/
def cwnId : ConvWN := { run := id, init := fun _ y => y }

/-- A convolution whose calibration agrees with the identity at init
scale 0 but differs everywhere else. -/
def cwnAlt : ConvWN := { run := id, init := fun t y => if t = 0 then y else [] }

/-- A coupling network of identity convolutions. -/
def nb10 : NICEBlockM :=
  { conv1 := cwnId, conv2 := cwnId, conv3 := cwnId, act := id }

/-- The same network with the final convolution replaced by `cwnAlt`. -/
def nb10' : NICEBlockM :=
  { conv1 := cwnId, conv2 := cwnId, conv3 := cwnAlt, act := id }

lemma length_zip2 (f : ℚ → ℚ → ℚ) (a b : Ten) :
    (zip2 f a b).length = min a.length b.length := by
  simp [zip2]

lemma take_z1 (c : ℕ) (x w : Ten) (hw : w.length ≤ (x.drop c).length) :
    (x.take c ++ w).take c = x.take c := by
  rcases le_or_lt c x.length with h | h
  · have hlen : (x.take c).length = c := by simp [h]
    rw [List.take_append_eq_append_take, hlen, Nat.sub_self, List.take_zero,
      List.append_nil, List.take_take, min_self]
  · have hd : x.drop c = [] := List.drop_eq_nil_of_le (le_of_lt h)
    have hw0 : w = [] := by
      rw [hd] at hw
      exact List.eq_nil_of_length_eq_zero (Nat.le_zero.mp hw)
    rw [hw0, List.append_nil, List.take_take, min_self]

lemma drop_z1 (c : ℕ) (x w : Ten) (hw : w.length ≤ (x.drop c).length) :
    (x.take c ++ w).drop c = w := by
  rcases le_or_lt c x.length with h | h
  · have hlen : (x.take c).length = c := by simp [h]
    have hdl := List.drop_left (x.take c) w
    rw [hlen] at hdl
    exact hdl
  · have hd : x.drop c = [] := List.drop_eq_nil_of_le (le_of_lt h)
    have hw0 : w = [] := by
      rw [hd] at hw
      exact List.eq_nil_of_length_eq_zero (Nat.le_zero.mp hw)
    have hlen : (x.take c).length ≤ c := by
      simp [List.length_take]
    rw [hw0, List.append_nil, List.drop_eq_nil_of_le hlen]

lemma zipWith_zipWith_cancel {p : ℚ → Prop} (f g : ℚ → ℚ → ℚ)
    (hfg : ∀ x y, p y → g (f x y) y = x) :
    ∀ (a b : List ℚ), a.length = b.length → (∀ v ∈ b, p v) →
      List.zipWith g (List.zipWith f a b) b = a := by
  intro a
  induction a with
  | nil =>
      intro b hlen _
      cases b with
      | nil => rfl
      | cons y ys => simp at hlen
  | cons x xs ih =>
      intro b hlen hp
      cases b with
      | nil => simp at hlen
      | cons y ys =>
          simp only [List.zipWith]
          rw [hfg x y (hp y (List.mem_cons_self y ys)),
            ih ys (by simpa using hlen) (fun v hv => hp v (List.mem_cons_of_mem y hv))]

lemma shape_nil_right {b : Ten} (h : sameShape [] b) : b = [] := by
  simp only [sameShape, shape, List.map_nil] at h
  exact List.map_eq_nil_iff.mp h.symm

lemma zip2_cancel {p : ℚ → Prop} (f g : ℚ → ℚ → ℚ)
    (hfg : ∀ x y, p y → g (f x y) y = x) :
    ∀ (a b : Ten), sameShape a b → allEntries p b → zip2 g (zip2 f a b) b = a := by
  intro a
  induction a with
  | nil =>
      intro b hsh _
      rw [shape_nil_right hsh]
      rfl
  | cons ch a ih =>
      intro b hsh hp
      cases b with
      | nil => simp [sameShape, shape] at hsh
      | cons chb b =>
          simp only [sameShape, shape, List.map_cons, List.cons.injEq] at hsh
          simp only [zip2, List.zipWith]
          rw [zipWith_zipWith_cancel f g hfg ch chb hsh.1
              (fun v hv => hp chb (List.mem_cons_self chb b) v hv)]
          have := ih b hsh.2 (fun c hc v hv => hp c (List.mem_cons_of_mem chb hc) v hv)
          simpa [zip2] using this

lemma zip2_shape_left (f : ℚ → ℚ → ℚ) :
    ∀ (a b : Ten), sameShape a b → sameShape (zip2 f a b) a := by
  intro a
  induction a with
  | nil => intro b _; rfl
  | cons ch a ih =>
      intro b hsh
      cases b with
      | nil => simp [sameShape, shape] at hsh
      | cons chb b =>
          simp only [sameShape, shape, List.map_cons, List.cons.injEq] at hsh
          simp only [zip2, List.zipWith, sameShape, shape, List.map_cons,
            List.cons.injEq]
          constructor
          · rw [List.length_zipWith, hsh.1, min_self]
          · exact ih b hsh.2

lemma NICE_forward_split (P : Prim) (cfg : NICEcfg) (x : Ten) (s : Option Ten) :
    ∃ w : Ten, (NICE.forward P cfg x s).1 = x.take cfg.z1_channels ++ w ∧
      w.length ≤ (x.drop cfg.z1_channels).length := by
  unfold NICE.forward
  cases hm : (calcMuScale P cfg (x.take cfg.z1_channels) s).2 with
  | none =>
      refine ⟨tadd (x.drop cfg.z1_channels) (calcMuScale P cfg (x.take cfg.z1_channels) s).1,
        by simp [hm], ?_⟩
      rw [tadd, length_zip2]
      exact min_le_left _ _
  | some scl =>
      refine ⟨tadd (tmul (x.drop cfg.z1_channels) scl)
          (calcMuScale P cfg (x.take cfg.z1_channels) s).1, by simp [hm], ?_⟩
      rw [tadd, length_zip2, tmul, length_zip2]
      exact le_trans (min_le_left _ _) (min_le_left _ _)

lemma NICE_forward_take (P : Prim) (cfg : NICEcfg) (x : Ten) (s : Option Ten) :
    (NICE.forward P cfg x s).1.take cfg.z1_channels = x.take cfg.z1_channels := by
  obtain ⟨w, hw, hlen⟩ := NICE_forward_split P cfg x s
  rw [hw]
  exact take_z1 _ _ _ hlen

lemma calcMuScale_some_scale (P : Prim) (cfg : NICEcfg) (z1 : Ten)
    (s : Option Ten) (scl : Ten)
    (h : (calcMuScale P cfg z1 s).2 = some scl) : cfg.scale = true := by
  by_contra hc
  simp only [calcMuScale, Bool.not_eq_true] at h hc
  rw [hc] at h
  simp at h

lemma niceScale_of_some (P : Prim) (cfg : NICEcfg) (z1 : Ten)
    (s : Option Ten) (scl : Ten)
    (h : (calcMuScale P cfg z1 s).2 = some scl) :
    niceScale P cfg z1 s = scl := by
  simp [niceScale, h]

/-- Core inversion fact for the coupling: with the division epsilon set to
zero (the exact-arithmetic idealisation of the source's 1e-12 guard),
`NICE.backward` undoes `NICE.forward` whenever the network output shapes
match the z2 partition and every scale entry is non-zero, and it returns
the negated logdet. -/
lemma NICE_backward_forward (P : Prim) (cfg : NICEcfg) (x : Ten)
    (s : Option Ten)
    (hmu : sameShape (x.drop cfg.z1_channels)
      (niceMu P cfg (x.take cfg.z1_channels) s))
    (hscl : cfg.scale = true →
      sameShape (x.drop cfg.z1_channels)
          (niceScale P cfg (x.take cfg.z1_channels) s) ∧
        allEntries (fun v => v ≠ 0)
          (niceScale P cfg (x.take cfg.z1_channels) s)) :
    NICE.backwardE P cfg 0 (NICE.forward P cfg x s).1 s
      = (x, -(NICE.forward P cfg x s).2) := by
  have htk := NICE_forward_take P cfg x s
  simp only [niceMu] at hmu
  cases hm : (calcMuScale P cfg (x.take cfg.z1_channels) s).2 with
  | none =>
      have hfwd : NICE.forward P cfg x s
          = (x.take cfg.z1_channels ++
              tadd (x.drop cfg.z1_channels)
                (calcMuScale P cfg (x.take cfg.z1_channels) s).1, 0) := by
        simp [NICE.forward, hm]
      have hwlen : (tadd (x.drop cfg.z1_channels)
          (calcMuScale P cfg (x.take cfg.z1_channels) s).1).length
          ≤ (x.drop cfg.z1_channels).length := by
        rw [tadd, length_zip2]; exact min_le_left _ _
      have hdr : (NICE.forward P cfg x s).1.drop cfg.z1_channels
          = tadd (x.drop cfg.z1_channels)
              (calcMuScale P cfg (x.take cfg.z1_channels) s).1 := by
        rw [hfwd]; exact drop_z1 _ _ _ hwlen
      have hcancel : tsub (tadd (x.drop cfg.z1_channels)
            (calcMuScale P cfg (x.take cfg.z1_channels) s).1)
            (calcMuScale P cfg (x.take cfg.z1_channels) s).1
          = x.drop cfg.z1_channels := by
        refine zip2_cancel (p := fun _ => True) _ _ ?_ _ _ hmu ?_
        · intro a b _; exact add_sub_cancel_right a b
        · intro ch _ v _; trivial
      simp only [NICE.backwardE, htk, hdr, hm]
      rw [hcancel, hfwd]
      simp [List.take_append_drop]
  | some scl =>
      have hsc := calcMuScale_some_scale P cfg _ s scl hm
      obtain ⟨hsh, hnz⟩ := hscl hsc
      rw [niceScale_of_some P cfg _ s scl hm] at hsh hnz
      have hfwd : NICE.forward P cfg x s
          = (x.take cfg.z1_channels ++
              tadd (tmul (x.drop cfg.z1_channels) scl)
                (calcMuScale P cfg (x.take cfg.z1_channels) s).1,
              entSum (zmap P.rlog scl)) := by
        simp [NICE.forward, hm]
      have hwlen : (tadd (tmul (x.drop cfg.z1_channels) scl)
          (calcMuScale P cfg (x.take cfg.z1_channels) s).1).length
          ≤ (x.drop cfg.z1_channels).length := by
        rw [tadd, length_zip2, tmul, length_zip2]
        exact le_trans (min_le_left _ _) (min_le_left _ _)
      have hdr : (NICE.forward P cfg x s).1.drop cfg.z1_channels
          = tadd (tmul (x.drop cfg.z1_channels) scl)
              (calcMuScale P cfg (x.take cfg.z1_channels) s).1 := by
        rw [hfwd]; exact drop_z1 _ _ _ hwlen
      have hshmul : sameShape (tmul (x.drop cfg.z1_channels) scl)
          (calcMuScale P cfg (x.take cfg.z1_channels) s).1 :=
        ((zip2_shape_left _ _ _ hsh).trans hmu)
      have hcancel1 : tsub (tadd (tmul (x.drop cfg.z1_channels) scl)
            (calcMuScale P cfg (x.take cfg.z1_channels) s).1)
            (calcMuScale P cfg (x.take cfg.z1_channels) s).1
          = tmul (x.drop cfg.z1_channels) scl := by
        refine zip2_cancel (p := fun _ => True) _ _ ?_ _ _ hshmul ?_
        · intro a b _; exact add_sub_cancel_right a b
        · intro ch _ v _; trivial
      have hcancel2 : zip2 (fun a v => a / (v + 0))
            (tmul (x.drop cfg.z1_channels) scl) scl
          = x.drop cfg.z1_channels := by
        refine zip2_cancel (p := fun v => v ≠ 0) _ _ ?_ _ _ hsh hnz
        intro a b hb
        rw [add_zero]
        exact mul_div_cancel_right₀ a hb
      simp only [NICE.backwardE, htk, hdr, hm]
      rw [hcancel1, hcancel2, hfwd]
      simp [List.take_append_drop, mul_neg_one]

/-- The backward logdet is exactly the negated forward logdet on the
round trip, for every epsilon: the z1 partition passes through forward
unchanged, so backward recomputes the identical scale tensor. -/
lemma NICE_logdet_negated (P : Prim) (cfg : NICEcfg) (eps : ℚ) (x : Ten)
    (s : Option Ten) :
    (NICE.backwardE P cfg eps (NICE.forward P cfg x s).1 s).2
      = -(NICE.forward P cfg x s).2 := by
  have htk := NICE_forward_take P cfg x s
  simp only [NICE.backwardE, htk]
  cases hm : (calcMuScale P cfg (x.take cfg.z1_channels) s).2 with
  | none =>
      simp only [hm]
      have hfwd : (NICE.forward P cfg x s).2 = 0 := by
        simp [NICE.forward, hm]
      rw [hfwd, neg_zero]
  | some scl =>
      simp only [hm]
      have hfwd : (NICE.forward P cfg x s).2 = entSum (zmap P.rlog scl) := by
        simp [NICE.forward, hm]
      rw [hfwd, mul_neg_one]

lemma countInternal_nil : countInternal [] = 0 := rfl

lemma countInternal_cons (b : BlockM) (bs : List BlockM) :
    countInternal (b :: bs)
      = countInternal bs + (if b.internal then 1 else 0) := by
  simp [countInternal, List.countP_cons]

lemma fwdBlocks_stack_length (O : SqOps) (h : Option Ten) :
    ∀ (bs : List BlockM) (t : Ten),
      (fwdBlocks O h bs t).2.2.length = countInternal bs := by
  intro bs
  induction bs with
  | nil => intro t; simp [fwdBlocks, countInternal]
  | cons b bs ih =>
      intro t
      by_cases hbi : b.internal = true
      · simp [fwdBlocks, hbi, countInternal_cons, ih]
      · simp [fwdBlocks, hbi, countInternal_cons, ih]

lemma rebuild_add (O : SqOps) :
    ∀ (m k : ℕ) (t : Ten) (st : List Ten),
      rebuild O (m + k) t st
        = (rebuild O m t st).bind (fun p => rebuild O k p.1 p.2) := by
  intro m
  induction m with
  | zero =>
      intro k t st
      simp [rebuild]
  | succ m ih =>
      intro k t st
      have harith : m + 1 + k = (m + k) + 1 := by omega
      rw [harith]
      cases st with
      | nil => simp [rebuild]
      | cons e st' =>
          simp only [rebuild]
          exact ih k (O.unsqueeze2d (O.unsplit2d t e)) st'

lemma rebuild_drop (O : SqOps) :
    ∀ (n : ℕ) (t : Ten) (st : List Ten) (y : Ten) (st₂ : List Ten),
      rebuild O n t st = some (y, st₂) →
      st₂ = st.drop n ∧ st.length = n + st₂.length := by
  intro n
  induction n with
  | zero =>
      intro t st y st₂ hr
      simp only [rebuild, Option.some.injEq, Prod.mk.injEq] at hr
      simp [← hr.2]
  | succ n ih =>
      intro t st y st₂ hr
      cases st with
      | nil => simp [rebuild] at hr
      | cons e st' =>
          simp only [rebuild] at hr
          obtain ⟨h1, h2⟩ := ih _ _ _ _ hr
          refine ⟨by simpa using h1, ?_⟩
          simp only [List.length_cons]
          omega

lemma rebuild_full (O : SqOps) :
    ∀ (n : ℕ) (t : Ten) (st : List Ten), st.length = n →
      ∃ y, rebuild O n t st = some (y, []) := by
  intro n
  induction n with
  | zero =>
      intro t st hlen
      rw [List.eq_nil_of_length_eq_zero hlen]
      exact ⟨t, rfl⟩
  | succ n ih =>
      intro t st hlen
      cases st with
      | nil => simp at hlen
      | cons e st' =>
          simp only [rebuild]
          exact ih _ st' (by simpa using hlen)

lemma take_succ_of_drop (st : List Ten) (n : ℕ) (e : Ten) (st' : List Ten)
    (hd : st.drop n = e :: st') : st.take (n + 1) = st.take n ++ [e] := by
  have hle : n ≤ st.length := by
    by_contra hc
    rw [List.drop_eq_nil_of_le (le_of_lt (not_le.mp hc))] at hd
    simp at hd
  have hlen : (st.take n).length = n := by simp [hle]
  have h1 : st = st.take n ++ (e :: st') := by rw [← hd, List.take_append_drop]
  conv_lhs => rw [h1]
  rw [List.take_append_eq_append_take, hlen,
    List.take_of_length_le (by omega : (st.take n).length ≤ n + 1)]
  simp

lemma presplit_of_rebuild (O : SqOps)
    (L2 : ∀ t, O.squeeze2d (O.unsqueeze2d t) = t)
    (L4 : ∀ a b, O.split2d (O.unsplit2d a b) = (a, b)) :
    ∀ (n : ℕ) (v : Ten) (st : List Ten) (z : Ten) (st₂ : List Ten)
      (acc : List Ten),
      rebuild O n v st = some (z, st₂) →
      presplit O n (O.squeeze2d z) acc = (O.squeeze2d v, st.take n ++ acc) := by
  intro n
  induction n with
  | zero =>
      intro v st z st₂ acc hr
      simp only [rebuild, Option.some.injEq, Prod.mk.injEq] at hr
      rw [← hr.1]
      simp [presplit]
  | succ n ih =>
      intro v st z st₂ acc hr
      rw [rebuild_add O n 1] at hr
      cases hmid : rebuild O n v st with
      | none => rw [hmid] at hr; simp at hr
      | some p =>
          rw [hmid] at hr
          obtain ⟨w, st₁⟩ := p
          simp only [Option.bind_eq_bind, Option.some_bind] at hr
          cases st₁ with
          | nil => simp [rebuild] at hr
          | cons e st'' =>
              simp only [rebuild, Option.some.injEq, Prod.mk.injEq] at hr
              obtain ⟨hz, hst₂⟩ := hr
              have hdrop : st.drop n = e :: st'' := (rebuild_drop O n v st w _ hmid).1.symm
              simp only [presplit, ← hz, L2, L4]
              rw [ih v st w (e :: st'') (e :: acc) hmid]
              rw [take_succ_of_drop st n e st'' hdrop, List.append_assoc]
              rfl

lemma rebuild_of_presplit (O : SqOps)
    (L1 : ∀ t, O.unsqueeze2d (O.squeeze2d t) = t)
    (L3 : ∀ t, O.unsplit2d (O.split2d t).1 (O.split2d t).2 = t) :
    ∀ (n : ℕ) (t : Ten) (acc : List Ten),
      rebuild O n (O.unsqueeze2d (presplit O n t acc).1) (presplit O n t acc).2
        = some (O.unsqueeze2d t, acc) := by
  intro n
  induction n with
  | zero =>
      intro t acc
      simp [presplit, rebuild]
  | succ n ih =>
      intro t acc
      simp only [presplit]
      rw [rebuild_add O n 1, ih (O.squeeze2d (O.split2d t).1) ((O.split2d t).2 :: acc)]
      simp only [Option.bind_eq_bind, Option.some_bind, rebuild, L1, L3]

lemma presplit_length (O : SqOps) :
    ∀ (n : ℕ) (t : Ten) (st : List Ten),
      (presplit O n t st).2.length = n + st.length := by
  intro n
  induction n with
  | zero => intro t st; simp [presplit]
  | succ n ih =>
      intro t st
      simp only [presplit]
      rw [ih]
      simp only [List.length_cons]
      omega

lemma bwdBlocks_append (O : SqOps) (h : Option Ten) :
    ∀ (xs ys : List BlockM) (t : Ten) (st : List Ten) (a : ℚ),
      bwdBlocks O h (xs ++ ys) t st a
        = (bwdBlocks O h xs t st a).bind
            (fun r => bwdBlocks O h ys r.1 r.2.1 r.2.2) := by
  intro xs
  induction xs with
  | nil => intro ys t st a; simp [bwdBlocks]
  | cons b xs ih =>
      intro ys t st a
      by_cases hbi : b.internal = true
      · cases st with
        | nil => simp [bwdBlocks, hbi]
        | cons e st' => simp [bwdBlocks, hbi, ih]
      · simp [bwdBlocks, hbi, ih]

lemma fwdBlocks_nil_eq (O : SqOps) (h : Option Ten) (t : Ten) :
    fwdBlocks O h [] t = (t, 0, []) := rfl

lemma fwdBlocks_cons_internal (O : SqOps) (h : Option Ten) (b : BlockM)
    (bs : List BlockM) (t : Ten) (hbi : b.internal = true) :
    fwdBlocks O h (b :: bs) t
      = ((fwdBlocks O h bs (O.split2d (b.fwd h (O.squeeze2d t)).1).1).1,
          (b.fwd h (O.squeeze2d t)).2
            + (fwdBlocks O h bs (O.split2d (b.fwd h (O.squeeze2d t)).1).1).2.1,
          (fwdBlocks O h bs (O.split2d (b.fwd h (O.squeeze2d t)).1).1).2.2
            ++ [(O.split2d (b.fwd h (O.squeeze2d t)).1).2]) := by
  simp [fwdBlocks, hbi]

lemma fwdBlocks_cons_top (O : SqOps) (h : Option Ten) (b : BlockM)
    (bs : List BlockM) (t : Ten) (hbi : b.internal = false) :
    fwdBlocks O h (b :: bs) t
      = ((fwdBlocks O h bs (b.fwd h (O.squeeze2d t)).1).1,
          (b.fwd h (O.squeeze2d t)).2
            + (fwdBlocks O h bs (b.fwd h (O.squeeze2d t)).1).2.1,
          (fwdBlocks O h bs (b.fwd h (O.squeeze2d t)).1).2.2) := by
  simp [fwdBlocks, hbi]

lemma bwdBlocks_nil_eq (O : SqOps) (h : Option Ten) (t : Ten) (st : List Ten)
    (a : ℚ) : bwdBlocks O h [] t st a = some (t, st, a) := rfl

lemma bwdBlocks_cons_internal (O : SqOps) (h : Option Ten) (b : BlockM)
    (bs : List BlockM) (t e : Ten) (st' : List Ten) (a : ℚ)
    (hbi : b.internal = true) :
    bwdBlocks O h (b :: bs) t (e :: st') a
      = bwdBlocks O h bs (O.unsqueeze2d (b.bwd h (O.unsplit2d t e)).1) st'
          (a + (b.bwd h (O.unsplit2d t e)).2) := by
  simp [bwdBlocks, hbi]

lemma bwdBlocks_cons_internal_nil (O : SqOps) (h : Option Ten) (b : BlockM)
    (bs : List BlockM) (t : Ten) (a : ℚ) (hbi : b.internal = true) :
    bwdBlocks O h (b :: bs) t [] a = none := by
  simp [bwdBlocks, hbi]

lemma bwdBlocks_cons_top (O : SqOps) (h : Option Ten) (b : BlockM)
    (bs : List BlockM) (t : Ten) (st : List Ten) (a : ℚ)
    (hbi : b.internal = false) :
    bwdBlocks O h (b :: bs) t st a
      = bwdBlocks O h bs (O.unsqueeze2d (b.bwd h t).1) st (a + (b.bwd h t).2) := by
  simp [bwdBlocks, hbi]

lemma bwd_of_fwd_blocks (O : SqOps) (h : Option Ten)
    (L1 : ∀ t, O.unsqueeze2d (O.squeeze2d t) = t)
    (L3 : ∀ t, O.unsplit2d (O.split2d t).1 (O.split2d t).2 = t) :
    ∀ (bs : List BlockM) (t : Ten) (extra : List Ten) (a : ℚ),
      (∀ b ∈ bs, ∀ u, b.bwd h (b.fwd h u).1 = (u, -(b.fwd h u).2)) →
      bwdBlocks O h bs.reverse (fwdBlocks O h bs t).1
          ((fwdBlocks O h bs t).2.2 ++ extra) a
        = some (t, extra, a - (fwdBlocks O h bs t).2.1) := by
  intro bs
  induction bs with
  | nil =>
      intro t extra a _
      simp [fwdBlocks_nil_eq, bwdBlocks_nil_eq]
  | cons b bs ih =>
      intro t extra a hfb
      have hfb_b := hfb b (List.mem_cons_self b bs)
      have hfb_bs : ∀ b' ∈ bs, ∀ u,
          b'.bwd h (b'.fwd h u).1 = (u, -(b'.fwd h u).2) :=
        fun b' hb' => hfb b' (List.mem_cons_of_mem b hb')
      cases hbi : b.internal
      · rw [fwdBlocks_cons_top O h b bs t hbi]
        rw [List.reverse_cons, bwdBlocks_append]
        simp only []
        rw [ih _ extra a hfb_bs]
        rw [Option.some_bind]
        simp only []
        rw [bwdBlocks_cons_top O h b [] _ extra _ hbi, hfb_b, L1,
          bwdBlocks_nil_eq]
        simp only [Option.some.injEq, Prod.mk.injEq]
        exact ⟨trivial, trivial, by ring⟩
      · rw [fwdBlocks_cons_internal O h b bs t hbi]
        rw [List.reverse_cons, bwdBlocks_append]
        simp only [List.append_assoc, List.singleton_append]
        rw [ih _ (_ :: extra) a hfb_bs]
        rw [Option.some_bind]
        simp only []
        rw [bwdBlocks_cons_internal O h b [] _ _ extra _ hbi, L3, hfb_b, L1,
          bwdBlocks_nil_eq]
        simp only [Option.some.injEq, Prod.mk.injEq]
        exact ⟨trivial, trivial, by ring⟩

lemma fwd_of_bwd_blocks (O : SqOps) (h : Option Ten)
    (L2 : ∀ t, O.squeeze2d (O.unsqueeze2d t) = t)
    (L4 : ∀ a b, O.split2d (O.unsplit2d a b) = (a, b)) :
    ∀ (bs : List BlockM) (t : Ten) (st : List Ten) (a : ℚ) (x : Ten)
      (st' : List Ten) (a' : ℚ),
      (∀ b ∈ bs, ∀ u, b.fwd h (b.bwd h u).1 = (u, -(b.bwd h u).2)) →
      bwdBlocks O h bs.reverse t st a = some (x, st', a') →
      ∃ consumed, st = consumed ++ st' ∧
        fwdBlocks O h bs x = (t, a - a', consumed) := by
  intro bs
  induction bs with
  | nil =>
      intro t st a x st' a' _ hbwd
      rw [List.reverse_nil, bwdBlocks_nil_eq] at hbwd
      simp only [Option.some.injEq, Prod.mk.injEq] at hbwd
      obtain ⟨hx, hst, ha⟩ := hbwd
      exact ⟨[], by simp [hst], by simp [fwdBlocks_nil_eq, ← hx, ← ha]⟩
  | cons b bs ih =>
      intro t st a x st' a' hbf hbwd
      have hbf_b := hbf b (List.mem_cons_self b bs)
      have hbf_bs : ∀ b' ∈ bs, ∀ u,
          b'.fwd h (b'.bwd h u).1 = (u, -(b'.bwd h u).2) :=
        fun b' hb' => hbf b' (List.mem_cons_of_mem b hb')
      rw [List.reverse_cons, bwdBlocks_append] at hbwd
      cases hmid : bwdBlocks O h bs.reverse t st a with
      | none => rw [hmid] at hbwd; simp at hbwd
      | some m =>
          rw [hmid, Option.some_bind] at hbwd
          obtain ⟨t₁, st₁, a₁⟩ := m
          obtain ⟨c₁, hc₁, hfwd₁⟩ := ih t st a t₁ st₁ a₁ hbf_bs hmid
          cases hbi : b.internal
          · rw [bwdBlocks_cons_top O h b [] _ _ _ hbi, bwdBlocks_nil_eq] at hbwd
            simp only [Option.some.injEq, Prod.mk.injEq] at hbwd
            obtain ⟨hx, hst1, ha1⟩ := hbwd
            refine ⟨c₁, by rw [hc₁, hst1], ?_⟩
            rw [fwdBlocks_cons_top O h b bs x hbi, ← hx, L2, hbf_b, hfwd₁]
            simp only [Option.some.injEq, Prod.mk.injEq]
            exact ⟨trivial, by rw [← ha1]; ring, trivial⟩
          · cases st₁ with
            | nil =>
                rw [bwdBlocks_cons_internal_nil O h b [] _ _ hbi] at hbwd
                simp at hbwd
            | cons e st₂ =>
                rw [bwdBlocks_cons_internal O h b [] _ _ _ _ hbi,
                  bwdBlocks_nil_eq] at hbwd
                simp only [Option.some.injEq, Prod.mk.injEq] at hbwd
                obtain ⟨hx, hst1, ha1⟩ := hbwd
                refine ⟨c₁ ++ [e], ?_, ?_⟩
                · rw [hc₁, ← hst1, List.append_assoc, List.singleton_append]
                · rw [fwdBlocks_cons_internal O h b bs x hbi, ← hx, L2,
                    hbf_b, L4]
                  simp only []
                  rw [hfwd₁]
                  simp only [Option.some.injEq, Prod.mk.injEq]
                  exact ⟨trivial, by rw [← ha1]; ring, trivial⟩

lemma bwdBlocks_success (O : SqOps) (h : Option Ten) :
    ∀ (bs : List BlockM) (t : Ten) (st : List Ten) (a : ℚ),
      countInternal bs ≤ st.length →
      ∃ r, bwdBlocks O h bs t st a = some r ∧
        r.2.1.length = st.length - countInternal bs := by
  intro bs
  induction bs with
  | nil =>
      intro t st a _
      exact ⟨(t, st, a), rfl, by simp [countInternal]⟩
  | cons b bs ih =>
      intro t st a hcount
      rw [countInternal_cons] at hcount
      by_cases hbi : b.internal = true
      · rw [hbi] at hcount
        simp only [if_true] at hcount
        cases st with
        | nil => simp at hcount
        | cons e st' =>
            simp only [List.length_cons] at hcount
            obtain ⟨r, hr, hlen⟩ := ih
              (O.unsqueeze2d (b.bwd h (O.unsplit2d t e)).1) st'
              (a + (b.bwd h (O.unsplit2d t e)).2) (by omega)
            refine ⟨r, ?_, ?_⟩
            · simp [bwdBlocks, hbi, hr]
            · rw [hlen, countInternal_cons, hbi]
              simp only [if_true, List.length_cons]
              omega
      · rw [if_neg hbi] at hcount
        simp only [Nat.add_zero] at hcount
        obtain ⟨r, hr, hlen⟩ := ih (O.unsqueeze2d (b.bwd h t).1) st
          (a + (b.bwd h t).2) hcount
        refine ⟨r, ?_, ?_⟩
        · simp [bwdBlocks, hbi, hr]
        · rw [hlen, countInternal_cons, if_neg hbi]
          simp

lemma entSum_cons (ch : List ℚ) (t : Ten) :
    entSum (ch :: t) = ch.sum + entSum t := by
  simp [entSum]

lemma entSum_zmap_mul (r : ℚ) (f : ℚ → ℚ) :
    ∀ t : Ten, entSum (zmap (fun v => r * f v) t) = r * entSum (zmap f t) := by
  intro t
  induction t with
  | nil => simp [entSum, zmap]
  | cons ch t ih =>
      simp only [zmap, List.map_cons, entSum_cons]
      rw [List.sum_map_mul_left ch f r]
      have ht : entSum (List.map (List.map fun v => r * f v) t)
          = r * entSum (List.map (List.map f) t) := by
        simpa [zmap] using ih
      rw [ht, mul_add]

/-- C7: constructing the multi-scale composer fails exactly when the level
count is not greater than 1 or the step-count list length differs from the
level count; construction succeeds for every configuration satisfying
both conditions (the two assertions of `Glow.__init__`). -/
theorem claim_C7 (supply : ℕ → StepLeaf) (levels : ℕ) (num_steps : List ℕ)
    (in_channels : ℕ) (scale : Bool) :
    (∃ g, mkGlow supply levels num_steps in_channels scale = some g)
      ↔ (1 < levels ∧ num_steps.length = levels) := by
  unfold mkGlow
  by_cases hc : 1 < levels ∧ num_steps.length = levels
  · simp [hc]
  · simp [hc]

/-- C8: `log_probability(x)` equals the standard-normal log-density of the
encoded latent z (the sum over all non-batch entries of
-0.5 * (z^2 + log(2*pi)), the constant abstracted as c) plus the logdet
accumulated by encode. -/
theorem claim_C8 (O : SqOps) (g : GlowM) (h : Option Ten) (c : ℚ) (x : Ten) :
    FlowGen.logProbability O g h c x
      = Option.map
          (fun r => entSum (zmap (fun v => -(1 / 2) * (v ^ 2 + c)) r.1) + r.2)
          (FlowGen.encode O g h x) := by
  unfold FlowGen.logProbability
  cases henc : FlowGen.encode O g h x with
  | none => simp
  | some r =>
      simp only [Option.map_some']
      have hsum : entSum (zmap (fun v => -(1 / 2) * (v ^ 2 + c)) r.1)
          = -(1 / 2) * entSum (zmap (fun v => v ^ 2 + c) r.1) :=
        entSum_zmap_mul (-(1 / 2)) (fun v => v ^ 2 + c) r.1
      rw [hsum, Option.some.injEq]
      ring

/-- C3: `NICE.forward` partitions the channels at the z1 boundary
C - floor(C/2), computes (mu, scale) from z1 only, returns the unchanged
z1 concatenated with `z2 * scale + mu` with logdet `sum(log(scale))` in
scale mode, else `z2 + mu` with logdet 0 — i.e. it coincides with the
coupling contract written from the spec, and z1 passes through
unchanged. -/
theorem claim_C3 (P : Prim) (net : Ten → Option Ten → Ten) (C : ℕ)
    (sc : Bool) (x : Ten) (s : Option Ten) :
    NICE.forward P (mkNICE net C 2 sc) x s
      = couplingForwardSpec P.rlog (niceMu P (mkNICE net C 2 sc))
          (niceScale P (mkNICE net C 2 sc)) C sc x s
    ∧ (NICE.forward P (mkNICE net C 2 sc) x s).1.take (C - C / 2)
        = x.take (C - C / 2) := by
  constructor
  · cases sc
    · simp [NICE.forward, couplingForwardSpec, niceMu, niceScale,
        calcMuScale, mkNICE]
    · simp [NICE.forward, couplingForwardSpec, niceMu, niceScale,
        calcMuScale, mkNICE]
  · exact NICE_forward_take P (mkNICE net C 2 sc) x s

/-- C6: `NICE.backward` recomputes (mu, scale) from the unchanged z1
partition of its input exactly as forward does, inverts the coupling as
`(z2 - mu) / (scale + 1e-12)` so the division is offset by a small
epsilon, and returns the negated logdet; without scale mode it returns
`z2 - mu` with logdet 0; and when sigmoid is positive every divisor is
non-zero. -/
theorem claim_C6 (P : Prim) (net : Ten → Option Ten → Ten) (C : ℕ)
    (sc : Bool) (x : Ten) (s : Option Ten) :
    NICE.backward P (mkNICE net C 2 sc) x s
      = couplingBackwardSpec P.rlog (niceMu P (mkNICE net C 2 sc))
          (niceScale P (mkNICE net C 2 sc)) niceEps C sc x s
    ∧ (NICE.backward P (mkNICE net C 2 sc) x s).2
        = -(NICE.forward P (mkNICE net C 2 sc) x s).2
    ∧ ((∀ q, 0 < P.sigmoid q) →
        allEntries (fun v => v + niceEps ≠ 0)
          (niceScale P (mkNICE net C 2 sc) (x.take (C - C / 2)) s)) := by
  refine ⟨?_, ?_, ?_⟩
  · cases sc
    · simp [NICE.backward, NICE.backwardE, couplingBackwardSpec, niceMu,
        niceScale, calcMuScale, mkNICE]
    · simp [NICE.backward, NICE.backwardE, couplingBackwardSpec, niceMu,
        niceScale, calcMuScale, mkNICE, mul_neg_one]
  · cases hm : (calcMuScale P (mkNICE net C 2 sc)
        (x.take (mkNICE net C 2 sc).z1_channels) s).2 with
    | none => simp [NICE.backward, NICE.backwardE, NICE.forward, hm]
    | some scl =>
        simp [NICE.backward, NICE.backwardE, NICE.forward, hm, mul_neg_one]
  · intro hsig
    cases sc
    · simp [niceScale, calcMuScale, mkNICE, allEntries]
    · intro ch hch v hv
      simp only [niceScale, calcMuScale, mkNICE, if_true, Option.getD_some,
        zmap] at hch
      obtain ⟨ch0, _, hch0⟩ := List.mem_map.mp hch
      rw [← hch0] at hv
      obtain ⟨q, _, hq⟩ := List.mem_map.mp hv
      have hpos : 0 < v + niceEps := by
        rw [← hq]
        have h1 : 0 < P.sigmoid (q + 2) := hsig (q + 2)
        have h2 : 0 < niceEps := by norm_num [niceEps]
        exact add_pos h1 h2
      exact ne_of_gt hpos

/-- C2: the per-example logdet of the backward pass is the exact negative
of the forward logdet on the round trip — for the NICE coupling alone
(whose backward logdet negates the forward logdet computed from the same
unchanged z1, for every epsilon), and for the full multi-level composer
(under the inverse laws of the squeeze/split primitives and exact
inversion of each block). -/
theorem claim_C2 :
    (∀ (P : Prim) (cfg : NICEcfg) (eps : ℚ) (x : Ten) (s : Option Ten),
        (NICE.backwardE P cfg eps (NICE.forward P cfg x s).1 s).2
          = -(NICE.forward P cfg x s).2)
    ∧ (∀ (O : SqOps) (g : GlowM) (h : Option Ten),
        (∀ t, O.unsqueeze2d (O.squeeze2d t) = t) →
        (∀ t, O.squeeze2d (O.unsqueeze2d t) = t) →
        (∀ t, O.unsplit2d (O.split2d t).1 (O.split2d t).2 = t) →
        (∀ a b, O.split2d (O.unsplit2d a b) = (a, b)) →
        (∀ b ∈ g.blocks, ∀ u, b.bwd h (b.fwd h u).1 = (u, -(b.fwd h u).2)) →
        ∀ x z ld, glowForward O g h x = some (z, ld) →
          glowBackward O g h z = some (x, -ld)) := by
  constructor
  · exact fun P cfg eps x s => NICE_logdet_negated P cfg eps x s
  · intro O g h L1 L2 L3 L4 hfb x z ld hfwd
    simp only [glowForward] at hfwd
    cases hre : rebuild O (g.levels - 1)
        (O.unsqueeze2d (fwdBlocks O h g.blocks x).1)
        (fwdBlocks O h g.blocks x).2.2 with
    | none => rw [hre] at hfwd; simp at hfwd
    | some p =>
        rw [hre] at hfwd
        by_cases hp : p.2 = []
        · simp only [hp, if_true, Option.some.injEq, Prod.mk.injEq] at hfwd
          obtain ⟨hpz, hld⟩ := hfwd
          obtain ⟨hdrop, hlen⟩ :=
            rebuild_drop O (g.levels - 1) _ _ _ _ hre
          rw [hp] at hlen
          have hlen2 : (fwdBlocks O h g.blocks x).2.2.length = g.levels - 1 := by
            simpa using hlen
          have hre2 : rebuild O (g.levels - 1)
              (O.unsqueeze2d (fwdBlocks O h g.blocks x).1)
              (fwdBlocks O h g.blocks x).2.2 = some (z, []) := by
            rw [hre]
            exact congrArg some (Prod.ext hpz hp)
          have hps := presplit_of_rebuild O L2 L4 (g.levels - 1) _ _ _ _ []
            hre2
          rw [L2, List.take_of_length_le (le_of_eq hlen2), List.append_nil]
            at hps
          simp only [glowBackward]
          rw [hps]
          have hbb := bwd_of_fwd_blocks O h L1 L3 g.blocks x [] 0 hfb
          rw [List.append_nil] at hbb
          rw [hbb]
          simp [hld]
        · simp only [hp, if_false] at hfwd
          exact Option.noConfusion hfwd

/-- C1: for every input, the composer's backward pass after its forward
pass reproduces the input exactly, and at the wrapper level
decode(encode(x)) reproduces x exactly — stated over the composer with the
squeeze/split inverse laws and exact block inversion as hypotheses, and
with the residual-count invariant of the constructor. -/
theorem claim_C1 (O : SqOps) (g : GlowM) (h : Option Ten)
    (L1 : ∀ t, O.unsqueeze2d (O.squeeze2d t) = t)
    (L2 : ∀ t, O.squeeze2d (O.unsqueeze2d t) = t)
    (L3 : ∀ t, O.unsplit2d (O.split2d t).1 (O.split2d t).2 = t)
    (L4 : ∀ a b, O.split2d (O.unsplit2d a b) = (a, b))
    (hfb : ∀ b ∈ g.blocks, ∀ u, b.bwd h (b.fwd h u).1 = (u, -(b.fwd h u).2))
    (hbf : ∀ b ∈ g.blocks, ∀ u, b.fwd h (b.bwd h u).1 = (u, -(b.bwd h u).2))
    (hcount : countInternal g.blocks = g.levels - 1) :
    (∀ x, ∃ z ld ld2, glowForward O g h x = some (z, ld)
        ∧ glowBackward O g h z = some (x, ld2))
    ∧ (∀ x, ∃ z ld ld2, FlowGen.encode O g h x = some (z, ld)
        ∧ FlowGen.decode O g h z = some (x, ld2)) := by
  constructor
  · intro x
    have hlen : (fwdBlocks O h g.blocks x).2.2.length = g.levels - 1 := by
      rw [fwdBlocks_stack_length O h g.blocks x, hcount]
    obtain ⟨y, hy⟩ := rebuild_full O (g.levels - 1)
      (O.unsqueeze2d (fwdBlocks O h g.blocks x).1)
      (fwdBlocks O h g.blocks x).2.2 hlen
    have hfwd : glowForward O g h x = some (y, (fwdBlocks O h g.blocks x).2.1) := by
      simp only [glowForward]
      rw [hy]
      simp
    have hps := presplit_of_rebuild O L2 L4 (g.levels - 1) _ _ _ _ [] hy
    rw [L2, List.take_of_length_le (le_of_eq hlen), List.append_nil] at hps
    have hbb := bwd_of_fwd_blocks O h L1 L3 g.blocks x [] 0 hfb
    rw [List.append_nil] at hbb
    refine ⟨y, (fwdBlocks O h g.blocks x).2.1,
      0 - (fwdBlocks O h g.blocks x).2.1, hfwd, ?_⟩
    simp only [glowBackward]
    rw [hps, hbb]
    simp
  · intro x
    have hplen : (presplit O (g.levels - 1) (O.squeeze2d x) []).2.length
        = g.levels - 1 := by
      rw [presplit_length]
      simp
    obtain ⟨r, hr, hrlen⟩ := bwdBlocks_success O h g.blocks.reverse
      (presplit O (g.levels - 1) (O.squeeze2d x) []).1
      (presplit O (g.levels - 1) (O.squeeze2d x) []).2 0
      (by rw [hplen, ← hcount, countInternal, countInternal, List.countP_reverse])
    obtain ⟨r1, st', a'⟩ := r
    rw [hplen] at hrlen
    have hcR : countInternal g.blocks.reverse = countInternal g.blocks := by
      simp [countInternal, List.countP_reverse]
    rw [hcR, hcount] at hrlen
    have hst' : st' = [] := by
      apply List.eq_nil_of_length_eq_zero
      simpa using hrlen
    rw [hst'] at hr
    have hbwd : glowBackward O g h x = some (r1, a') := by
      simp only [glowBackward]
      rw [hr]
      simp
    obtain ⟨consumed, hcons, hfwdB⟩ := fwd_of_bwd_blocks O h L2 L4 g.blocks
      _ _ _ r1 [] a' hbf hr
    rw [List.append_nil] at hcons
    have hrebuild := rebuild_of_presplit O L1 L3 (g.levels - 1)
      (O.squeeze2d x) []
    rw [L1] at hrebuild
    refine ⟨r1, a', 0 - a', hbwd, ?_⟩
    show glowForward O g h r1 = some (x, 0 - a')
    simp only [glowForward]
    rw [hfwdB]
    simp only []
    rw [← hcons, hrebuild]
    simp

lemma mkGlow_some (supply : ℕ → StepLeaf) (levels : ℕ) (ns : List ℕ)
    (inC : ℕ) (sc : Bool) (g : GlowB)
    (hg : mkGlow supply levels ns inC sc = some g) :
    1 < levels ∧ ns.length = levels ∧ g.levels = levels ∧
      g.blocks = buildBlocks supply 0 inC sc ns := by
  unfold mkGlow at hg
  by_cases hc : 1 < levels ∧ ns.length = levels
  · rw [if_pos hc, Option.some.injEq] at hg
    exact ⟨hc.1, hc.2, by rw [← hg], by rw [← hg]⟩
  · rw [if_neg hc] at hg
    exact Option.noConfusion hg

lemma buildBlocks_count (supply : ℕ → StepLeaf) :
    ∀ (ns : List ℕ) (idx inC : ℕ) (sc : Bool), ns ≠ [] →
      (buildBlocks supply idx inC sc ns).countP (fun b => b.internalTag)
        = ns.length - 1 := by
  intro ns
  induction ns with
  | nil => intro _ _ _ hne; exact absurd rfl hne
  | cons n ns ih =>
      intro idx inC sc _
      cases ns with
      | nil => simp [buildBlocks, List.countP_cons, BlockB.internalTag]
      | cons m rest =>
          have hrec := ih (idx + n + 1) (inC * 4 / 2) sc (by simp)
          rw [show buildBlocks supply idx inC sc (n :: m :: rest)
              = BlockB.internal (mkSteps supply idx n (inC * 4) sc)
                  (mkNICE (supply (idx + n)).net (inC * 4) 2 true)
                :: buildBlocks supply (idx + n + 1) (inC * 4 / 2) sc
                    (m :: rest) from rfl]
          rw [List.countP_cons, hrec]
          simp only [BlockB.internalTag, if_true, List.length_cons]
          omega

lemma countInternal_toM (P : Prim) (eps : ℚ) (bbs : List BlockB) :
    countInternal (bbs.map (BlockB.toM P eps))
      = bbs.countP (fun b => b.internalTag) := by
  unfold countInternal
  rw [List.countP_map]
  rfl

lemma mkGlow_countInternal (supply : ℕ → StepLeaf) (levels : ℕ)
    (ns : List ℕ) (inC : ℕ) (sc : Bool) (g : GlowB) (P : Prim) (eps : ℚ)
    (hg : mkGlow supply levels ns inC sc = some g) :
    countInternal (GlowB.toM P eps g).blocks = levels - 1 := by
  obtain ⟨hl, hlen, _, hbl⟩ := mkGlow_some supply levels ns inC sc g hg
  have hne : ns ≠ [] := by
    intro hnil
    rw [hnil] at hlen
    simp at hlen
    omega
  show countInternal (g.blocks.map (BlockB.toM P eps)) = levels - 1
  rw [countInternal_toM, hbl, buildBlocks_count supply ns 0 inC sc hne, hlen]

/-- C5: for every composer built by the constructor with L > 1 levels,
a full forward pass pushes exactly L-1 residuals, reassembly pops them
all and the trailing assertion passes (forward returns a value, never the
assertion-failure branch); a full backward pass pre-splits exactly L-1
residuals, the block loop pops them all and its trailing assertion passes
as well. -/
theorem claim_C5 (supply : ℕ → StepLeaf) (levels : ℕ) (ns : List ℕ)
    (inC : ℕ) (sc : Bool) (g : GlowB) (P : Prim) (eps : ℚ) (O : SqOps)
    (h : Option Ten) (hg : mkGlow supply levels ns inC sc = some g) :
    (∀ x, (fwdBlocks O h (GlowB.toM P eps g).blocks x).2.2.length
        = levels - 1)
    ∧ (∀ x, ∃ r, glowForward O (GlowB.toM P eps g) h x = some r)
    ∧ (∀ t, (presplit O ((GlowB.toM P eps g).levels - 1) t []).2.length
        = levels - 1)
    ∧ (∀ z, ∃ r, glowBackward O (GlowB.toM P eps g) h z = some r) := by
  obtain ⟨hl, hlen, hle, hbl⟩ := mkGlow_some supply levels ns inC sc g hg
  have hcount := mkGlow_countInternal supply levels ns inC sc g P eps hg
  have hlev : (GlowB.toM P eps g).levels = levels := hle
  refine ⟨?_, ?_, ?_, ?_⟩
  · intro x
    rw [fwdBlocks_stack_length, hcount]
  · intro x
    have hlen2 : (fwdBlocks O h (GlowB.toM P eps g).blocks x).2.2.length
        = (GlowB.toM P eps g).levels - 1 := by
      rw [fwdBlocks_stack_length, hcount, hlev]
    obtain ⟨y, hy⟩ := rebuild_full O ((GlowB.toM P eps g).levels - 1)
      (O.unsqueeze2d (fwdBlocks O h (GlowB.toM P eps g).blocks x).1)
      (fwdBlocks O h (GlowB.toM P eps g).blocks x).2.2 hlen2
    refine ⟨(y, (fwdBlocks O h (GlowB.toM P eps g).blocks x).2.1), ?_⟩
    simp only [glowForward]
    rw [hy]
    simp
  · intro t
    rw [presplit_length, hlev]
    simp
  · intro z
    have hplen : (presplit O ((GlowB.toM P eps g).levels - 1)
        (O.squeeze2d z) []).2.length = levels - 1 := by
      rw [presplit_length, hlev]
      simp
    obtain ⟨r, hr, hrlen⟩ := bwdBlocks_success O h
      (GlowB.toM P eps g).blocks.reverse
      (presplit O ((GlowB.toM P eps g).levels - 1) (O.squeeze2d z) []).1
      (presplit O ((GlowB.toM P eps g).levels - 1) (O.squeeze2d z) []).2 0
      (by
        rw [hplen]
        have : countInternal (GlowB.toM P eps g).blocks.reverse
            = countInternal (GlowB.toM P eps g).blocks := by
          simp [countInternal, List.countP_reverse]
        rw [this, hcount])
    obtain ⟨r1, st', a'⟩ := r
    have hst' : st' = [] := by
      apply List.eq_nil_of_length_eq_zero
      rw [hrlen, hplen]
      have : countInternal (GlowB.toM P eps g).blocks.reverse
          = countInternal (GlowB.toM P eps g).blocks := by
        simp [countInternal, List.countP_reverse]
      rw [this, hcount]
      omega
    rw [hst'] at hr
    refine ⟨(r1, a'), ?_⟩
    simp only [glowBackward]
    rw [hr]
    simp

lemma mkSteps_scale (supply : ℕ → StepLeaf) (idx n inC : ℕ) (sc : Bool)
    (st : StepM) (hst : st ∈ mkSteps supply idx n inC sc) :
    st.coupling.scale = sc := by
  simp only [mkSteps, List.mem_map, List.mem_range] at hst
  obtain ⟨j, _, hj⟩ := hst
  rw [← hj]
  rfl

lemma buildBlocks_scale (supply : ℕ → StepLeaf) :
    ∀ (ns : List ℕ) (idx inC : ℕ) (sc : Bool) (b : BlockB),
      b ∈ buildBlocks supply idx inC sc ns →
      (∀ st ∈ b.steps, st.coupling.scale = sc)
        ∧ (∀ steps prior, b = BlockB.internal steps prior →
            prior.scale = true) := by
  intro ns
  induction ns with
  | nil => intro _ _ _ b hb; simp [buildBlocks] at hb
  | cons n ns ih =>
      intro idx inC sc b hb
      cases ns with
      | nil =>
          simp only [buildBlocks, List.mem_singleton] at hb
          subst hb
          constructor
          · intro st hst
            exact mkSteps_scale supply idx n (inC * 4) sc st hst
          · intro steps prior hb
            exact BlockB.noConfusion hb
      | cons m rest =>
          rw [show buildBlocks supply idx inC sc (n :: m :: rest)
              = BlockB.internal (mkSteps supply idx n (inC * 4) sc)
                  (mkNICE (supply (idx + n)).net (inC * 4) 2 true)
                :: buildBlocks supply (idx + n + 1) (inC * 4 / 2) sc
                    (m :: rest) from rfl] at hb
          rcases List.mem_cons.mp hb with hb1 | hb2
          · subst hb1
            constructor
            · intro st hst
              exact mkSteps_scale supply idx n (inC * 4) sc st hst
            · intro steps prior hb
              injection hb with hsteps hprior
              rw [← hprior]
              rfl
          · exact ih (idx + n + 1) (inC * 4 / 2) sc b hb2

/-- C4 claims that with scale=False every coupling's logdet and the model
logdet are identically 0; this fails because each internal block's prior
coupling is constructed with scale=True regardless.  Amended statement:
with scale=False, every GlowStep coupling is built with scale=False and
returns logdet 0 in both directions, but the prior coupling of every
internal block is built with scale=True, so the model logdet need not
vanish. -/
theorem claim_C4 :
    (∀ (P : Prim) (net : Ten → Option Ten → Ten) (inC f : ℕ) (x : Ten)
        (s : Option Ten) (eps : ℚ),
        (NICE.forward P (mkNICE net inC f false) x s).2 = 0
          ∧ (NICE.backwardE P (mkNICE net inC f false) eps x s).2 = 0)
    ∧ (∀ (supply : ℕ → StepLeaf) (levels : ℕ) (ns : List ℕ) (inC : ℕ)
        (g : GlowB), mkGlow supply levels ns inC false = some g →
        ∀ b ∈ g.blocks, (∀ st ∈ b.steps, st.coupling.scale = false)
          ∧ (∀ steps prior, b = BlockB.internal steps prior →
              prior.scale = true)) := by
  constructor
  · intro P net inC f x s eps
    constructor
    · simp [NICE.forward, calcMuScale, mkNICE]
    · simp [NICE.backwardE, calcMuScale, mkNICE]
  · intro supply levels ns inC g hg b hb
    obtain ⟨_, _, _, hbl⟩ := mkGlow_some supply levels ns inC false g hg
    rw [hbl] at hb
    exact buildBlocks_scale supply ns 0 inC false b hb

/-- The counterexample to C4 as stated: the constructor run with
scale=False still builds the internal block's prior with scale=True, and
on a concrete input the model's forward logdet is 2, not 0 (conv1x1
contributions are zero here, so the non-zero logdet comes entirely from
the prior coupling). -/
theorem claim_C4_counterexample :
    mkGlow supply4 2 [0, 0] 1 false = some g4
    ∧ Option.map Prod.snd
        (glowForward O4 (GlowB.toM prim4 niceEps g4) none x4) = some 2
    ∧ (2 : ℚ) ≠ 0 := by
  refine ⟨rfl, ?_, by norm_num⟩
  norm_num [glowForward, fwdBlocks, rebuild, GlowB.toM, g4, buildBlocks,
    BlockB.toM, BlockB.internalTag, blockForward, stepsForward, mkSteps,
    supply4, leaf4, prim4, O4, x4, NICE.forward, calcMuScale, mkNICE,
    chunk4, chunkSize, zmap, tadd, tmul, zip2, entSum, List.range,
    List.range.loop]

/-- C9: `GlowStep.forward` passes the conditioning input h to both
sub-transforms but `GlowStep.backward` invokes the coupling's backward
with no conditioning argument; consequently the step-level round trip is
guaranteed (exactly, with the epsilon idealised to zero) when h is absent,
and fails on a concrete step and input when h is present. -/
theorem claim_C9 :
    (∀ (P : Prim) (st : StepM) (x : Ten),
      (∀ u, st.conv1x1.bwd none (st.conv1x1.fwd none u).1
          = (u, -(st.conv1x1.fwd none u).2)) →
      sameShape ((st.conv1x1.fwd none x).1.drop st.coupling.z1_channels)
        (niceMu P st.coupling
          ((st.conv1x1.fwd none x).1.take st.coupling.z1_channels) none) →
      (st.coupling.scale = true →
        sameShape ((st.conv1x1.fwd none x).1.drop st.coupling.z1_channels)
            (niceScale P st.coupling
              ((st.conv1x1.fwd none x).1.take st.coupling.z1_channels) none)
          ∧ allEntries (fun v => v ≠ 0)
            (niceScale P st.coupling
              ((st.conv1x1.fwd none x).1.take st.coupling.z1_channels) none)) →
      stepBackwardE P st 0 (stepForward P st x none).1 none
        = (x, -(stepForward P st x none).2))
    ∧ (stepBackwardE prim9 step9 0 (stepForward prim9 step9 x9 h9).1 h9).1
        ≠ x9 := by
  constructor
  · intro P st x hconv hmu hscl
    have hnice := NICE_backward_forward P st.coupling
      (st.conv1x1.fwd none x).1 none hmu hscl
    simp only [stepForward, stepBackwardE, hnice, hconv]
    exact Prod.ext rfl (by ring)
  · norm_num [stepForward, stepBackwardE, step9, prim9, net9, x9, h9,
      NICE.forward, NICE.backwardE, calcMuScale, mkNICE, chunk2, chunkSize,
      zmap, tadd, tsub, tmul, zip2]

/-- C10: `NICEBlock.init` calibrates its first two convolutions with the
caller-supplied init scale and always calibrates the final convolution
with init scale 0: the result depends only on conv1's and conv2's
calibration at the caller's scale and on conv3's calibration at scale 0
(the caller's scale never reaches conv3). -/
theorem claim_C10 (b b' : NICEBlockM) (sc0 : ℚ) (x : Ten) (s : Option Ten)
    (h1 : b'.conv1.init sc0 = b.conv1.init sc0)
    (h2 : b'.conv2.init sc0 = b.conv2.init sc0)
    (h3 : b'.conv3.init 0 = b.conv3.init 0)
    (hact : b'.act = b.act) :
    NICEBlockM.initRun b' x s sc0 = NICEBlockM.initRun b x s sc0 := by
  unfold NICEBlockM.initRun
  rw [h1, h2, h3, hact]

/-- Witness instantiating C1: all four primitive inverse laws, exact
block inversion and the residual-count invariant hold for the concrete
two-level composer over `Oeq`, and the composer round trip succeeds on a
concrete input. -/
theorem claim_C1_witness :
    (glowForward Oeq gEq none [[1]]).isSome = true := by
  obtain ⟨z, ld, ld2, hf, hb⟩ := (claim_C1 Oeq gEq none (fun t => rfl)
    (fun t => rfl) (fun t => splitE.symm_apply_apply t)
    (fun a b => splitE.apply_symm_apply (a, b))
    (by
      intro b hb u
      rcases List.mem_cons.mp hb with h | h
      · subst h; simp [blkI]
      · rcases List.mem_cons.mp h with h2 | h2
        · subst h2; simp [blkT]
        · exact absurd h2 (List.not_mem_nil b))
    (by
      intro b hb u
      rcases List.mem_cons.mp hb with h | h
      · subst h; simp [blkI]
      · rcases List.mem_cons.mp h with h2 | h2
        · subst h2; simp [blkT]
        · exact absurd h2 (List.not_mem_nil b))
    rfl).1 [[1]]
  rw [hf]
  rfl

/-- Witness instantiating C2: the NICE logdet negation at a concrete
coupling and input, and the composer logdet negation at a concrete
composer whose forward pass evaluates to a known value. -/
theorem claim_C2_witness :
    (NICE.backwardE prim9 (mkNICE net9 2 2 false) 0
        (NICE.forward prim9 (mkNICE net9 2 2 false) x9 none).1 none).2
      = -(NICE.forward prim9 (mkNICE net9 2 2 false) x9 none).2
    ∧ glowBackward Oeq gOne none [[1]] = some ([[1]], -0) := by
  constructor
  · exact claim_C2.1 prim9 (mkNICE net9 2 2 false) 0 x9 none
  · exact claim_C2.2 Oeq gOne none (fun t => rfl) (fun t => rfl)
      (fun t => splitE.symm_apply_apply t)
      (fun a b => splitE.apply_symm_apply (a, b))
      (by
        intro b hb u
        rcases List.mem_cons.mp hb with h | h
        · subst h; simp [blkT]
        · exact absurd h (List.not_mem_nil b))
      [[1]] [[1]] 0
      (by norm_num [glowForward, fwdBlocks, rebuild, gOne, blkT, Oeq])

/-- Witness instantiating C4's amended statement: a scale-free coupling
reports zero logdet on a concrete input, and the prior of the first
internal block of the concretely constructed scale=False composer is a
scale=True coupling. -/
theorem claim_C4_witness :
    (NICE.forward prim4 (mkNICE (supply4 0).net 5 2 false) x4 none).2 = 0
    ∧ (mkNICE (supply4 0).net 4 2 true).scale = true := by
  constructor
  · exact (claim_C4.1 prim4 (supply4 0).net 5 2 x4 none 0).1
  · have hmem : BlockB.internal (mkSteps supply4 0 0 (1 * 4) false)
        (mkNICE (supply4 (0 + 0)).net (1 * 4) 2 true) ∈ g4.blocks :=
      List.mem_cons_self _ _
    exact (claim_C4.2 supply4 2 [0, 0] 1 g4 rfl _ hmem).2
      (mkSteps supply4 0 0 (1 * 4) false)
      (mkNICE (supply4 (0 + 0)).net (1 * 4) 2 true) rfl

/-- Witness instantiating C5: on the concretely constructed two-level
composer the forward pass returns a value and the backward pre-split
builds exactly one residual. -/
theorem claim_C5_witness :
    (glowForward O4 (GlowB.toM prim4 niceEps g4) none x4).isSome = true
    ∧ (presplit O4 ((GlowB.toM prim4 niceEps g4).levels - 1) x4 []).2.length
        = 2 - 1 := by
  have hc5 := claim_C5 supply4 2 [0, 0] 1 false g4 prim4 niceEps O4 none rfl
  constructor
  · obtain ⟨r, hr⟩ := hc5.2.1 x4
    rw [hr]
    rfl
  · exact hc5.2.2.1 x4

/-- Witness instantiating C6: the backward-equals-spec equation at a
concrete coupling and input, and every division guard non-zero there
(prim4's sigmoid is the positive constant 1/2). -/
theorem claim_C6_witness :
    NICE.backward prim4 (mkNICE (supply4 0).net 4 2 true) x4 none
      = couplingBackwardSpec prim4.rlog
          (niceMu prim4 (mkNICE (supply4 0).net 4 2 true))
          (niceScale prim4 (mkNICE (supply4 0).net 4 2 true)) niceEps 4 true
          x4 none
    ∧ allEntries (fun v => v + niceEps ≠ 0)
        (niceScale prim4 (mkNICE (supply4 0).net 4 2 true)
          (x4.take (4 - 4 / 2)) none) := by
  have hc6 := claim_C6 prim4 (supply4 0).net 4 true x4 none
  exact ⟨hc6.1, hc6.2.2 (fun q => by norm_num [prim4])⟩

/-- Witness instantiating C9's round-trip guarantee at h = none on the
concrete step and input used by its counterexample half. -/
theorem claim_C9_witness :
    stepBackwardE prim9 step9 0 (stepForward prim9 step9 x9 none).1 none
      = (x9, -(stepForward prim9 step9 x9 none).2) := by
  exact claim_C9.1 prim9 step9 x9
    (by intro u; simp [step9])
    (by show shape _ = shape _; rfl)
    (by intro hh; exact Bool.noConfusion hh)

/-- Witness instantiating C10: replacing the third convolution by one
that agrees at init scale 0 leaves the init output unchanged on a
concrete input and non-zero init scale. -/
theorem claim_C10_witness :
    NICEBlockM.initRun nb10' [[3]] none 1 = NICEBlockM.initRun nb10 [[3]] none 1 :=
  claim_C10 nb10 nb10' 1 [[3]] none rfl rfl
    (by funext y; simp [nb10, nb10', cwnId, cwnAlt]) rfl
